import Mathlib

/-!
Verification of the tiled multi-scale semantic-segmentation inference engine
and its accuracy aggregator
(`mseg_semantic/tool/inference_task.py`, `mseg_semantic/tool/accuracy_calculator.py`).

The Python code is shallowly embedded: machine integers become `Nat`/`Int`,
floating-point arithmetic on stride rates and score maps becomes exact `ℚ`
arithmetic, numpy arrays become lists or index functions, and fallible
control flow becomes explicit traces / `Option` values.
-/

namespace Mseg

/-! ## Padding (`pad_to_crop_sz`, inference_task.py lines 143-158)

`pad_h = max(crop_h - ori_h, 0)`; the padded image has size `ori_h + pad_h`
in that axis.  `pad_h_half = int(pad_h / 2)`. -/

/-- Size of one spatial axis after `pad_to_crop_sz`:
`ori + max (crop - ori) 0` (`Nat` subtraction is truncated, so `c - ori`
is exactly python's `max(crop_h - ori_h, 0)`). -/
def padDim (ori c : ℕ) : ℕ := ori + (c - ori)

/-- `pad_h_half = int(pad_h / 2)` of `pad_to_crop_sz`. -/
def padHalf (ori c : ℕ) : ℕ := (c - ori) / 2

theorem crop_le_padDim (ori c : ℕ) : c ≤ padDim ori c := by
  unfold padDim; omega

/-! ## Sliding-window tiling (`scale_process_cuda`, inference_task.py lines 364-387)

`stride_h = int(np.ceil(self.crop_h*stride_rate))`
`grid_h   = int(np.ceil(float(new_h-self.crop_h)/stride_h) + 1)`

The float64 computations are modelled by exact rational arithmetic.  For the
nonnegative values arising here python's `int()` truncation coincides with the
mathematical ceiling, which we realize executably through `Int` euclidean
division (`⌈a/b⌉ = -((-a)/b)` for `b > 0`); `ceilDivZ_eq_ceil` ties the
executable form to Mathlib's `⌈·⌉`. -/

/-- Exact ceiling of the fraction `a / b` of integers, valid for `0 < b`. -/
def ceilDivZ (a b : ℤ) : ℤ := -(-a / b)

theorem ceilDivZ_eq_ceil (a b : ℤ) (hb : 0 < b) :
    ceilDivZ a b = ⌈(a : ℚ) / (b : ℚ)⌉ := by
  have hd : ((b.toNat : ℕ) : ℤ) = b := Int.toNat_of_nonneg hb.le
  have h1 : ⌈(a : ℚ) / (b : ℚ)⌉ = -⌊-((a : ℚ) / (b : ℚ))⌋ := by
    rw [Int.floor_neg]; ring
  have h2 : ((b : ℚ)) = ((b.toNat : ℕ) : ℚ) := by exact_mod_cast hd.symm
  rw [ceilDivZ, h1, ← neg_div, ← Int.cast_neg, h2, Rat.floor_intCast_div_natCast, hd]

/-- `stride = int(np.ceil(crop * stride_rate))`, over exact rationals
(`r = r.num / r.den`). -/
def strideOf (c : ℕ) (r : ℚ) : ℤ := ceilDivZ ((c : ℤ) * r.num) (r.den : ℤ)

theorem strideOf_eq_ceil (c : ℕ) (r : ℚ) : strideOf c r = ⌈(c : ℚ) * r⌉ := by
  have hden : (0 : ℤ) < (r.den : ℤ) := by exact_mod_cast r.pos
  rw [strideOf, ceilDivZ_eq_ceil _ _ hden]
  congr 1
  push_cast
  rw [mul_div_assoc, Rat.num_div_den]

/-- Default `stride_rate` of `scale_process_cuda` (keyword default `2/3`). -/
def defaultStrideRate : ℚ := 2 / 3

/-- `grid = int(np.ceil(float(n - c)/stride) + 1)` tiles along one axis. -/
def gridOf (n c : ℕ) (s : ℤ) : ℕ := (ceilDivZ ((n : ℤ) - (c : ℤ)) s + 1).toNat

theorem gridOf_eq_ceil (n c : ℕ) (s : ℤ) (hs : 0 < s) :
    gridOf n c s = (⌈((n : ℚ) - (c : ℚ)) / (s : ℚ)⌉ + 1).toNat := by
  rw [gridOf, ceilDivZ_eq_ceil _ _ hs]
  congr 2
  push_cast
  ring

/-- Tile end coordinate along one axis:
`e_h = min(index_h * stride_h + crop_h, new_h)`. -/
def tileEnd (n c : ℕ) (s : ℤ) (i : ℕ) : ℤ := min ((i : ℤ) * s + (c : ℤ)) (n : ℤ)

/-- Tile start coordinate along one axis (after the back-shift):
`s_h = e_h - crop_h`. -/
def tileStart (n c : ℕ) (s : ℤ) (i : ℕ) : ℤ := tileEnd n c s i - (c : ℤ)

/-- Pixel `p` lies inside the slice `[s_h, e_h)` written by tile `i`. -/
def covers (n c : ℕ) (s : ℤ) (i p : ℕ) : Prop :=
  tileStart n c s i ≤ (p : ℤ) ∧ (p : ℤ) < tileEnd n c s i

instance covers.dec (n c : ℕ) (s : ℤ) (i p : ℕ) : Decidable (covers n c s i p) := by
  unfold covers; infer_instance

/-- Value of `count_crop[ph, pw]` after the double tile loop: the loop body
increments the slice `count_crop[s_h:e_h, s_w:e_w]` once per pair
`(index_h, index_w)`, so the final count is the number of grid pairs whose
slices contain the pixel. -/
def countCrop2D (nh nw ch cw : ℕ) (sh sw : ℤ) (ph pw : ℕ) : ℕ :=
  ((Finset.range (gridOf nh ch sh) ×ˢ Finset.range (gridOf nw cw sw)).filter
    (fun ij => covers nh ch sh ij.1 ph ∧ covers nw cw sw ij.2 pw)).card

/-- Number of tiles enumerated by the double loop. -/
def numTiles (nh nw ch cw : ℕ) (sh sw : ℤ) : ℕ :=
  gridOf nh ch sh * gridOf nw cw sw

/-! ### One-dimensional coverage -/

theorem gridOf_pos (n c : ℕ) (s : ℤ) (hcn : c ≤ n) (hs : 0 < s) :
    0 < gridOf n c s := by
  rw [gridOf_eq_ceil n c s hs]
  have hnum : (0 : ℚ) ≤ ((n : ℚ) - (c : ℚ)) / (s : ℚ) := by
    apply div_nonneg
    · have : (c : ℚ) ≤ (n : ℚ) := by exact_mod_cast hcn
      linarith
    · positivity
  have hceil : (0 : ℤ) ≤ ⌈((n : ℚ) - (c : ℚ)) / (s : ℚ)⌉ := Int.ceil_nonneg hnum
  rw [Int.lt_toNat]
  omega

/-- Every pixel of the padded axis is covered by some tile of the grid,
provided the stride does not exceed the crop size. -/
theorem covers_exists (n c : ℕ) (s : ℤ) (hcn : c ≤ n)
    (hs1 : 1 ≤ s) (hsc : s ≤ (c : ℤ)) (p : ℕ) (hp : p < n) :
    ∃ i < gridOf n c s, covers n c s i p := by
  have hs0 : (0 : ℤ) < s := by linarith
  have hgrid := gridOf_eq_ceil n c s hs0
  by_cases hpc : p < c
  · refine ⟨0, gridOf_pos n c s hcn hs0, ?_, ?_⟩
    · show tileEnd n c s 0 - (c : ℤ) ≤ (p : ℤ)
      have : tileEnd n c s 0 = (c : ℤ) := by
        unfold tileEnd
        simp only [Nat.cast_zero, zero_mul, zero_add]
        exact min_eq_left (by exact_mod_cast hcn)
      rw [this]
      simp
    · show (p : ℤ) < tileEnd n c s 0
      have : tileEnd n c s 0 = (c : ℤ) := by
        unfold tileEnd
        simp only [Nat.cast_zero, zero_mul, zero_add]
        exact min_eq_left (by exact_mod_cast hcn)
      rw [this]
      exact_mod_cast hpc
  · push_neg at hpc
    set t : ℕ := s.toNat with ht_def
    have ht : (t : ℤ) = s := Int.toNat_of_nonneg hs0.le
    have htpos : 0 < t := by omega
    set q : ℕ := (p - c) / t with hq_def
    refine ⟨q + 1, ?_, ?_, ?_⟩
    · -- q + 1 < gridOf n c s
      rw [hgrid, Int.lt_toNat]
      have hql : ((q : ℤ)) < ⌈((n : ℚ) - (c : ℚ)) / (s : ℚ)⌉ := by
        rw [Int.lt_ceil]
        have h1 : (q : ℚ) * (t : ℚ) ≤ ((p - c : ℕ) : ℚ) := by
          exact_mod_cast Nat.div_mul_le_self (p - c) t
        have h2 : ((p - c : ℕ) : ℚ) < (n : ℚ) - (c : ℚ) := by
          have : ((p - c : ℕ) : ℚ) = (p : ℚ) - (c : ℚ) := by
            push_cast [Nat.cast_sub hpc]
            ring
          rw [this]
          have : (p : ℚ) < (n : ℚ) := by exact_mod_cast hp
          linarith
        have hts : (t : ℚ) = (s : ℚ) := by exact_mod_cast ht
        have hsq : (0 : ℚ) < (s : ℚ) := by exact_mod_cast hs0
        rw [lt_div_iff₀ hsq]
        push_cast
        calc ((q : ℚ)) * (s : ℚ) = (q : ℚ) * (t : ℚ) := by rw [hts]
          _ ≤ ((p - c : ℕ) : ℚ) := h1
          _ < (n : ℚ) - (c : ℚ) := h2
      push_cast
      omega
    · -- tileStart ≤ p
      show tileEnd n c s (q + 1) - (c : ℤ) ≤ (p : ℤ)
      have hmin : tileEnd n c s (q + 1) ≤ ((q + 1 : ℕ) : ℤ) * s + (c : ℤ) :=
        min_le_left _ _
      have hqt : ((q + 1 : ℕ) : ℤ) * s ≤ (p : ℤ) := by
        have h1 : q * t ≤ p - c := Nat.div_mul_le_self (p - c) t
        have h2 : (q + 1) * t ≤ (p - c) + t := by
          calc (q + 1) * t = q * t + t := by ring
            _ ≤ (p - c) + t := by omega
        have h3 : (q + 1) * t ≤ p := by
          have htc : t ≤ c := by omega
          omega
        calc ((q + 1 : ℕ) : ℤ) * s = (((q + 1) * t : ℕ) : ℤ) := by
              push_cast [ht]
              ring
          _ ≤ (p : ℤ) := by exact_mod_cast h3
      linarith [hmin, hqt]
    · -- p < tileEnd
      show (p : ℤ) < tileEnd n c s (q + 1)
      unfold tileEnd
      rw [lt_min_iff]
      constructor
      · have h1 : p - c < (q + 1) * t := by
          have hdm := Nat.div_add_mod (p - c) t
          have hmod : (p - c) % t < t := Nat.mod_lt _ htpos
          calc p - c = t * ((p - c) / t) + (p - c) % t := hdm.symm
            _ < t * ((p - c) / t) + t := by omega
            _ = (p - c) / t * t + t := by ring
            _ = (q + 1) * t := by rw [hq_def]; ring
        have h2 : (p : ℤ) - (c : ℤ) < ((q + 1 : ℕ) : ℤ) * s := by
          have : (((p - c) : ℕ) : ℤ) < (((q + 1) * t : ℕ) : ℤ) := by exact_mod_cast h1
          push_cast [Nat.cast_sub hpc, ht] at this ⊢
          linarith
        linarith
      · exact_mod_cast hp

theorem countCrop2D_pos (nh nw ch cw : ℕ) (sh sw : ℤ)
    (hchn : ch ≤ nh) (hcwn : cw ≤ nw)
    (hsh1 : 1 ≤ sh) (hshc : sh ≤ (ch : ℤ)) (hsw1 : 1 ≤ sw) (hswc : sw ≤ (cw : ℤ))
    (ph pw : ℕ) (hph : ph < nh) (hpw : pw < nw) :
    0 < countCrop2D nh nw ch cw sh sw ph pw := by
  obtain ⟨ih, hih, hcovh⟩ := covers_exists nh ch sh hchn hsh1 hshc ph hph
  obtain ⟨iw, hiw, hcovw⟩ := covers_exists nw cw sw hcwn hsw1 hswc pw hpw
  apply Finset.card_pos.mpr
  refine ⟨(ih, iw), Finset.mem_filter.mpr ⟨?_, hcovh, hcovw⟩⟩
  exact Finset.mem_product.mpr ⟨Finset.mem_range.mpr hih, Finset.mem_range.mpr hiw⟩

end Mseg

namespace Mseg

/-- C3: `scale_process_cuda` computes `stride = ceil(crop * stride_rate)` and
`grid = ceil((padded - crop)/stride) + 1` per axis (default stride_rate 2/3);
concretely, for a padded 8×8 image, 4×4 crop, stride_rate 1/2, the stride is
2, the grid is 3 per axis, and the 9 tiles cover every pixel of the 8×8
region. -/
theorem tiling_stride_grid_and_concrete_example :
    defaultStrideRate = 2 / 3 ∧
    strideOf 4 (1/2) = 2 ∧
    gridOf 8 4 (strideOf 4 (1/2)) = 3 ∧
    numTiles 8 8 4 4 (strideOf 4 (1/2)) (strideOf 4 (1/2)) = 9 ∧
    (∀ p < 8, ∀ q < 8,
      0 < countCrop2D 8 8 4 4 (strideOf 4 (1/2)) (strideOf 4 (1/2)) p q) := by
  have hs : strideOf 4 (1/2) = 2 := by
    rw [strideOf_eq_ceil]
    norm_num
  refine ⟨rfl, hs, ?_, ?_, ?_⟩
  · rw [hs]; decide
  · rw [hs]; decide
  · rw [hs]; decide

end Mseg

namespace Mseg

/-! ### Stride bounds induced by the stride rate -/

theorem one_le_strideOf (c : ℕ) (r : ℚ) (hc : 0 < c) (hr : 0 < r) :
    1 ≤ strideOf c r := by
  rw [strideOf_eq_ceil]
  have hpos : (0 : ℚ) < (c : ℚ) * r := mul_pos (by exact_mod_cast hc) hr
  have := Int.ceil_pos.mpr hpos
  omega

theorem strideOf_le_crop (c : ℕ) (r : ℚ) (hr1 : r ≤ 1) :
    strideOf c r ≤ (c : ℤ) := by
  rw [strideOf_eq_ceil]
  apply Int.ceil_le.mpr
  have hc0 : (0 : ℚ) ≤ (c : ℚ) := by positivity
  calc (c : ℚ) * r ≤ (c : ℚ) * 1 := mul_le_mul_of_nonneg_left hr1 hc0
    _ = ((c : ℤ) : ℚ) := by push_cast; ring

/-- C1 counterexample: the claim quantifies over every stride rate, but at
stride_rate = 2 (stride 4 > crop 2) the tile grid of an 8×8 padded image
leaves pixel (2,2) uncovered: `count_crop` is 0 there, so the elementwise
division hits a zero denominator. -/
theorem countCrop_zero_at_stride_rate_two :
    2 < padDim 8 2 ∧
    countCrop2D (padDim 8 2) (padDim 8 2) 2 2 (strideOf 2 2) (strideOf 2 2) 2 2 = 0 := by
  have hs : strideOf 2 (2 : ℚ) = 4 := by
    rw [strideOf_eq_ceil]; norm_num
  rw [hs]
  decide

/-- C1 (amended): for every input image, crop size, and stride rate in the
interval (0, 1], after the tile loop of `scale_process_cuda` the coverage
buffer `count_crop` is at least 1 at every pixel of the padded image, so the
elementwise division of the score sum by the coverage buffer never divides
by zero. -/
theorem coverage_count_pos_of_stride_rate_le_one
    (orih oriw ch cw : ℕ) (r : ℚ) (hch : 0 < ch) (hcw : 0 < cw)
    (hr0 : 0 < r) (hr1 : r ≤ 1) (ph pw : ℕ)
    (hph : ph < padDim orih ch) (hpw : pw < padDim oriw cw) :
    1 ≤ countCrop2D (padDim orih ch) (padDim oriw cw) ch cw
        (strideOf ch r) (strideOf cw r) ph pw :=
  countCrop2D_pos _ _ _ _ _ _ (crop_le_padDim _ _) (crop_le_padDim _ _)
    (one_le_strideOf ch r hch hr0) (strideOf_le_crop ch r hr1)
    (one_le_strideOf cw r hcw hr0) (strideOf_le_crop cw r hr1) ph pw hph hpw

/-- Closed instance of the amended C1 theorem at a concrete input
(5×3 image, 4×4 crop, stride rate 1, pixel (0,0)). -/
theorem coverage_count_pos_witness :
    1 ≤ countCrop2D (padDim 5 4) (padDim 3 4) 4 4 (strideOf 4 1) (strideOf 4 1) 0 0 :=
  coverage_count_pos_of_stride_rate_le_one 5 3 4 4 1 (by decide) (by decide)
    zero_lt_one (le_refl 1) 0 0 (by decide) (by decide)

/-! ### Tile geometry: exact crop size and back-shift (C4, C9) -/

theorem tile_bounds_1d (n c : ℕ) (s : ℤ) (i : ℕ) (hcn : c ≤ n) (hs : 0 ≤ s) :
    0 ≤ tileStart n c s i ∧ tileStart n c s i ≤ tileEnd n c s i ∧
      tileEnd n c s i ≤ (n : ℤ) := by
  unfold tileStart tileEnd
  refine ⟨?_, ?_, min_le_right _ _⟩
  · have h1 : (c : ℤ) ≤ (i : ℤ) * s + (c : ℤ) := by
      have : (0 : ℤ) ≤ (i : ℤ) * s := mul_nonneg (by positivity) hs
      linarith
    have h2 : (c : ℤ) ≤ (n : ℤ) := by exact_mod_cast hcn
    have := le_min h1 h2
    linarith
  · have : (0 : ℤ) ≤ (c : ℤ) := by positivity
    linarith

/-- C4: along each axis, every tile satisfies `end - start = crop` (the
extracted crop has exactly crop_h×crop_w spatial size, start being
nonnegative), and the clamped back-shift is zero for every non-final grid
index — `start = index * stride` — so extra overlap can occur only on the
final row or column of tiles. -/
theorem tile_crop_exact_and_shift_only_last (n c : ℕ) (s : ℤ)
    (hcn : c ≤ n) (hs : 1 ≤ s) :
    (∀ i : ℕ, tileEnd n c s i - tileStart n c s i = (c : ℤ) ∧
      0 ≤ tileStart n c s i) ∧
    (∀ i : ℕ, i + 1 < gridOf n c s → tileStart n c s i = (i : ℤ) * s) := by
  have hs0 : (0 : ℤ) < s := by linarith
  constructor
  · intro i
    refine ⟨?_, (tile_bounds_1d n c s i hcn hs0.le).1⟩
    unfold tileStart
    ring
  · intro i hi
    rw [gridOf_eq_ceil n c s hs0, Int.lt_toNat] at hi
    have hi2 : ((i : ℤ)) < ⌈((n : ℚ) - (c : ℚ)) / (s : ℚ)⌉ := by
      push_cast at hi
      omega
    have hi3 : ((i : ℚ)) < ((n : ℚ) - (c : ℚ)) / (s : ℚ) := by
      have := Int.lt_ceil.mp hi2
      exact_mod_cast this
    have hsq : (0 : ℚ) < (s : ℚ) := by exact_mod_cast hs0
    have hi4 : (i : ℚ) * (s : ℚ) + (c : ℚ) < (n : ℚ) := by
      rw [lt_div_iff₀ hsq] at hi3
      linarith
    have hi5 : (i : ℤ) * s + (c : ℤ) ≤ (n : ℤ) := by
      have : ((i : ℤ) * s + (c : ℤ) : ℤ) < (n : ℤ) := by exact_mod_cast hi4
      linarith
    unfold tileStart tileEnd
    rw [min_eq_left hi5]
    ring

/-- Closed instance of the C4 theorem: 8-pixel axis, crop 4, stride 2 —
tile 2 has exact crop size, and the non-final tile 1 starts at `1 * 2`. -/
theorem tile_crop_exact_witness :
    (tileEnd 8 4 2 2 - tileStart 8 4 2 2 = (4 : ℤ) ∧ 0 ≤ tileStart 8 4 2 2) ∧
      tileStart 8 4 2 1 = (1 : ℤ) * 2 :=
  ⟨(tile_crop_exact_and_shift_only_last 8 4 2 (by decide) (by decide)).1 2,
   (tile_crop_exact_and_shift_only_last 8 4 2 (by decide) (by decide)).2 1 (by decide)⟩

/-- C9: with the padded sizes produced by `pad_to_crop_sz` (each axis at
least the crop size), every tile index yields slice bounds with
`0 ≤ s_h ≤ e_h ≤ new_h` and `0 ≤ s_w ≤ e_w ≤ new_w`, so every crop
extraction and accumulator write stays inside the padded image and the
sum/coverage buffers. -/
theorem tile_bounds_within_padded (orih oriw ch cw : ℕ) (sh sw : ℤ)
    (ih iw : ℕ) (hsh : 0 ≤ sh) (hsw : 0 ≤ sw) :
    (0 ≤ tileStart (padDim orih ch) ch sh ih ∧
      tileStart (padDim orih ch) ch sh ih ≤ tileEnd (padDim orih ch) ch sh ih ∧
      tileEnd (padDim orih ch) ch sh ih ≤ (padDim orih ch : ℤ)) ∧
    (0 ≤ tileStart (padDim oriw cw) cw sw iw ∧
      tileStart (padDim oriw cw) cw sw iw ≤ tileEnd (padDim oriw cw) cw sw iw ∧
      tileEnd (padDim oriw cw) cw sw iw ≤ (padDim oriw cw : ℤ)) :=
  ⟨tile_bounds_1d _ _ _ _ (crop_le_padDim orih ch) hsh,
   tile_bounds_1d _ _ _ _ (crop_le_padDim oriw cw) hsw⟩

/-- Closed instance of the C9 theorem at a concrete input
(473×473 crop on a 480×640 image, stride 316, tile (1,2)). -/
theorem tile_bounds_within_padded_witness :
    (0 ≤ tileStart (padDim 480 473) 473 316 1 ∧
      tileStart (padDim 480 473) 473 316 1 ≤ tileEnd (padDim 480 473) 473 316 1 ∧
      tileEnd (padDim 480 473) 473 316 1 ≤ (padDim 480 473 : ℤ)) ∧
    (0 ≤ tileStart (padDim 640 473) 473 316 2 ∧
      tileStart (padDim 640 473) 473 316 2 ≤ tileEnd (padDim 640 473) 473 316 2 ∧
      tileEnd (padDim 640 473) 473 316 2 ≤ (padDim 640 473 : ℤ)) :=
  tile_bounds_within_padded 480 640 473 473 316 316 1 2 (by decide) (by decide)

end Mseg

namespace Mseg

/-! ## `net_process` taxonomy branch (inference_task.py lines 403-446)

The branch on `self.output_taxonomy` sits at lines 432-438, after the model
forward pass `output = self.model(input)` at line 426. -/

/-- The observable steps of one `net_process` call, in program order. -/
inductive NetEvent
  | forward
  | softmaxUniversal
  | convertTestDataset
  | fatalQuit
deriving DecidableEq

/-- Trace of one `net_process` call: the model forward pass always runs
first (line 426); then the taxonomy branch applies the softmax
(`'universal'`), the taxonomy conversion (`'test_dataset'`), or prints
`'Unrecognized output taxonomy. Quitting....'` and calls `quit()`. -/
def netProcessTrace (outputTaxonomy : String) : List NetEvent :=
  NetEvent.forward ::
    (if outputTaxonomy = "universal" then [NetEvent.softmaxUniversal]
     else if outputTaxonomy = "test_dataset" then [NetEvent.convertTestDataset]
     else [NetEvent.fatalQuit])

/-- Whether the `net_process` call returns an output (as opposed to
terminating the process at the taxonomy branch). -/
def netProcessCompletes (outputTaxonomy : String) : Bool :=
  outputTaxonomy == "universal" || outputTaxonomy == "test_dataset"

/-- C2 counterexample: for an unrecognized taxonomy mode the fatal quit
does not happen before inference begins — the trace shows a model forward
pass (inference on the first crop) strictly before the quit. -/
theorem netProcess_forward_precedes_quit :
    "bogus" ≠ "universal" ∧ "bogus" ≠ "test_dataset" ∧
    netProcessTrace "bogus" = [NetEvent.forward, NetEvent.fatalQuit] := by
  refine ⟨by decide, by decide, ?_⟩
  rfl

/-- C2 (amended): for every configuration whose taxonomy mode string is
neither recognized mode, `net_process` terminates the program with a fatal
explicit error at its taxonomy branch and never silently falls back to a
default mode — but the branch is reached only after the model forward pass
on the first crop, not before inference begins. -/
theorem netProcess_unrecognized_taxonomy_quits (mode : String)
    (hu : mode ≠ "universal") (ht : mode ≠ "test_dataset") :
    netProcessTrace mode = [NetEvent.forward, NetEvent.fatalQuit] ∧
      netProcessCompletes mode = false := by
  constructor
  · unfold netProcessTrace
    rw [if_neg hu, if_neg ht]
  · unfold netProcessCompletes
    simp only [Bool.or_eq_false_iff, beq_eq_false_iff_ne, ne_eq]
    exact ⟨hu, ht⟩

/-- Closed instance of the amended C2 theorem at a concrete mode string. -/
theorem netProcess_unrecognized_taxonomy_quits_witness :
    netProcessTrace "naive" = [NetEvent.forward, NetEvent.fatalQuit] ∧
      netProcessCompletes "naive" = false :=
  netProcess_unrecognized_taxonomy_quits "naive" (by decide) (by decide)

/-! ## `net_process` flip augmentation (inference_task.py lines 418-446)

With `flip=True` the batch is `[crop, crop.flip(width)]`; after the model
and the taxonomy branch, the result is
`(output[0] + output[1].flip(width)) / 2`.  A crop is modelled along the
width axis as a list of per-position scores; normalization, the
deterministic model, and the per-position taxonomy/softmax step are
absorbed into the abstract per-crop classifier `g` (each acts independently
on the batch elements). -/

/-- `net_process` with flip enabled, for a deterministic classifier `g`. -/
def netProcessFlip (g : List ℚ → List ℚ) (image : List ℚ) : List ℚ :=
  List.zipWith (fun a b => (a + b) / 2) (g image) ((g image.reverse).reverse)

/-- Identity stub classifier (deterministic, shape-preserving). -/
def stubClassifier : List ℚ → List ℚ := fun scores => scores

/-- C6 counterexample: with the identity stub classifier and the crop
`[0, 1]`, `net_process` on the horizontal mirror yields `[1, 0]`, not the
identical output `[0, 1]` claimed. -/
theorem netProcessFlip_mirror_not_identical :
    netProcessFlip stubClassifier (([0, 1] : List ℚ).reverse) ≠
      netProcessFlip stubClassifier ([0, 1] : List ℚ) := by
  simp only [netProcessFlip, stubClassifier, List.reverse_cons, List.reverse_nil,
    List.nil_append, List.cons_append, List.reverse_reverse, List.zipWith_cons_cons,
    List.zipWith_nil_right]
  intro h
  have h0 := congrArg (fun l => l.getD 0 0) h
  simp at h0

/-- C6 (amended): for every deterministic shape-preserving classifier and
every crop, `net_process` with flip enabled is mirror-equivariant: applied
to the horizontal mirror of a crop it yields exactly the horizontal mirror
of its output on the crop (identical outputs fail already for the identity
classifier). -/
theorem netProcessFlip_mirror_equivariant (g : List ℚ → List ℚ)
    (hlen : ∀ x : List ℚ, (g x).length = x.length) (image : List ℚ) :
    netProcessFlip g image.reverse = (netProcessFlip g image).reverse := by
  unfold netProcessFlip
  rw [List.reverse_zipWith (by simp [hlen])]
  simp only [List.reverse_reverse]
  exact (List.zipWith_comm_of_comm _ (fun a b => by ring) _ _).symm

/-- Closed instance of the amended C6 theorem at a concrete crop. -/
theorem netProcessFlip_mirror_equivariant_witness :
    netProcessFlip stubClassifier (([2, 5] : List ℚ).reverse) =
      (netProcessFlip stubClassifier ([2, 5] : List ℚ)).reverse :=
  netProcessFlip_mirror_equivariant stubClassifier (fun _ => rfl) [2, 5]

end Mseg

namespace Mseg

/-! ## Multi-scale fusion (`execute_on_img`, inference_task.py lines 330-343)

`prediction = zeros(...); for scale: prediction += scale_map;
prediction /= len(scales); prediction = argmax(prediction, axis=2);
gray_img = np.uint8(prediction)`.  A pixel's class scores are a `List ℚ`;
an H×W score map is a pixel-indexed function. -/

/-- Maximum of a list of scores (0 for the empty list, which never arises). -/
def listMax : List ℚ → ℚ
  | [] => 0
  | [v] => v
  | v :: w :: t => max v (listMax (w :: t))

/-- `torch.argmax` along the class axis at one pixel: the index of the
first occurrence of the maximal value. -/
def argmaxIdx (scores : List ℚ) : ℕ := scores.indexOf (listMax scores)

/-- Elementwise sum of the per-scale score vectors at one pixel, starting
from the zero accumulator (`prediction = np.zeros(...)`). -/
def sumScoreMaps (C : ℕ) (maps : List (List ℚ)) : List ℚ :=
  maps.foldl (fun acc m => List.zipWith (· + ·) acc m) (List.replicate C 0)

/-- `prediction /= len(self.scales)` at one pixel. -/
def avgScores (C : ℕ) (maps : List (List ℚ)) : List ℚ :=
  (sumScoreMaps C maps).map (fun v => v / (maps.length : ℚ))

/-- Fused label at one pixel: argmax of the averaged scores, then the
`np.uint8` cast (truncation modulo 256). -/
def fusePixel (C : ℕ) (maps : List (List ℚ)) : ℕ :=
  argmaxIdx (avgScores C maps) % 256

/-- Fused label map: `fusePixel` applied elementwise. -/
def fuseImage (C : ℕ) (maps : List (ℕ → ℕ → List ℚ)) (y x : ℕ) : ℕ :=
  fusePixel C (maps.map (fun m => m y x))

theorem listMax_mem : ∀ (l : List ℚ), l ≠ [] → listMax l ∈ l
  | [], h => absurd rfl h
  | [v], _ => by simp [listMax]
  | v :: w :: t, _ => by
    rcases le_total v (listMax (w :: t)) with h | h
    · have : listMax (v :: w :: t) = listMax (w :: t) := by
        simp [listMax, max_eq_right h]
      rw [this]
      exact List.mem_cons_of_mem _ (listMax_mem (w :: t) (by simp))
    · have : listMax (v :: w :: t) = v := by
        simp [listMax, max_eq_left h]
      rw [this]
      exact List.mem_cons_self _ _

theorem le_listMax : ∀ (l : List ℚ) (v : ℚ), v ∈ l → v ≤ listMax l
  | [], _, hv => absurd hv (by simp)
  | [w], v, hv => by
    simp at hv
    simp [listMax, hv]
  | w :: u :: t, v, hv => by
    have hunfold : listMax (w :: u :: t) = max w (listMax (u :: t)) := rfl
    rw [hunfold]
    rcases List.mem_cons.mp hv with h | h
    · rw [h]
      exact le_max_left _ _
    · exact le_trans (le_listMax (u :: t) v h) (le_max_right _ _)

end Mseg

namespace Mseg

theorem getD_ne_of_lt_indexOf :
    ∀ (l : List ℚ) (a : ℚ) (k : ℕ), k < l.indexOf a → l.getD k 0 ≠ a
  | [], a, k, hlt => by simp at hlt
  | v :: t, a, 0, hlt => by
    intro heq
    simp only [List.getD_cons_zero] at heq
    rw [heq, List.indexOf_cons_self] at hlt
    omega
  | v :: t, a, k + 1, hlt => by
    have hva : v ≠ a := by
      intro hva
      rw [hva, List.indexOf_cons_self] at hlt
      omega
    rw [List.indexOf_cons_ne t hva] at hlt
    simp only [List.getD_cons_succ]
    exact getD_ne_of_lt_indexOf t a k (by omega)

theorem getD_mem_of_lt_length (l : List ℚ) (k : ℕ) (hk : k < l.length) :
    l.getD k 0 ∈ l := by
  rw [List.getD_eq_getElem?_getD, List.getElem?_eq_getElem hk]
  exact List.getElem_mem hk

theorem getD_indexOf_self (l : List ℚ) (a : ℚ) (h : a ∈ l) :
    l.getD (l.indexOf a) 0 = a := by
  have hlt : l.indexOf a < l.length := List.indexOf_lt_length.mpr h
  rw [List.getD_eq_getElem?_getD, List.getElem?_eq_getElem hlt]
  exact List.getElem_indexOf hlt

theorem sumScoreMaps_length (C : ℕ) (maps : List (List ℚ))
    (h : ∀ m ∈ maps, m.length = C) : (sumScoreMaps C maps).length = C := by
  unfold sumScoreMaps
  suffices hgen : ∀ (ms : List (List ℚ)), (∀ m ∈ ms, m.length = C) →
      ∀ acc : List ℚ, acc.length = C →
      (ms.foldl (fun acc m => List.zipWith (· + ·) acc m) acc).length = C by
    exact hgen maps h (List.replicate C 0) (List.length_replicate _ _)
  intro ms
  induction ms with
  | nil => intro _ acc hacc; simpa
  | cons m tl ih =>
    intro hms acc hacc
    simp only [List.foldl_cons]
    apply ih (fun m' hm' => hms m' (List.mem_cons_of_mem _ hm'))
    rw [List.length_zipWith, hacc, hms m (List.mem_cons_self _ _)]
    exact Nat.min_self C

theorem avgScores_length (C : ℕ) (maps : List (List ℚ))
    (h : ∀ m ∈ maps, m.length = C) : (avgScores C maps).length = C := by
  unfold avgScores
  rw [List.length_map]
  exact sumScoreMaps_length C maps h

end Mseg

namespace Mseg

/-- C5: for every non-empty list of per-pixel score maps with a common
class count C (0 < C ≤ 256, as with the 194-class universal taxonomy), the
fused label at each pixel is the argmax of the elementwise sum divided by
the number of scales: it is a valid class index, its averaged score is the
maximum, every smaller index has a strictly smaller averaged score (ties
broken by the lowest class index, deterministically), and the `np.uint8`
cast (mod 256) leaves the label unchanged. -/
theorem fuseImage_argmax_lowest_index_uint8 (C : ℕ)
    (maps : List (ℕ → ℕ → List ℚ)) (y x : ℕ)
    (_hne : maps ≠ []) (hC0 : 0 < C) (hC : C ≤ 256)
    (hlen : ∀ m ∈ maps, (m y x).length = C) :
    (avgScores C (maps.map fun m => m y x)).length = C ∧
    fuseImage C maps y x = argmaxIdx (avgScores C (maps.map fun m => m y x)) ∧
    fuseImage C maps y x < C ∧
    (avgScores C (maps.map fun m => m y x)).getD (fuseImage C maps y x) 0 =
      listMax (avgScores C (maps.map fun m => m y x)) ∧
    (∀ k < fuseImage C maps y x,
      (avgScores C (maps.map fun m => m y x)).getD k 0 <
        listMax (avgScores C (maps.map fun m => m y x))) ∧
    (∀ k < C, (avgScores C (maps.map fun m => m y x)).getD k 0 ≤
        listMax (avgScores C (maps.map fun m => m y x))) := by
  set l : List ℚ := avgScores C (maps.map fun m => m y x) with hl_def
  have hlen' : ∀ m' ∈ maps.map (fun m => m y x), m'.length = C := by
    intro m' hm'
    obtain ⟨m, hm, rfl⟩ := List.mem_map.mp hm'
    exact hlen m hm
  have hL : l.length = C := avgScores_length C _ hlen'
  have hlne : l ≠ [] := by
    intro hnil
    rw [hnil] at hL
    simp at hL
    omega
  have hmem : listMax l ∈ l := listMax_mem l hlne
  have hidx : l.indexOf (listMax l) < l.length := List.indexOf_lt_length.mpr hmem
  have hargC : argmaxIdx l < C := by
    unfold argmaxIdx
    omega
  have hfuse : fuseImage C maps y x = argmaxIdx l := by
    unfold fuseImage fusePixel
    rw [← hl_def]
    exact Nat.mod_eq_of_lt (lt_of_lt_of_le hargC hC)
  refine ⟨hL, hfuse, ?_, ?_, ?_, ?_⟩
  · rw [hfuse]; exact hargC
  · rw [hfuse]
    exact getD_indexOf_self l (listMax l) hmem
  · intro k hk
    rw [hfuse] at hk
    have hkl : k < l.length := by
      unfold argmaxIdx at hk
      omega
    have hne2 : l.getD k 0 ≠ listMax l := getD_ne_of_lt_indexOf l (listMax l) k hk
    have hle : l.getD k 0 ≤ listMax l :=
      le_listMax l _ (getD_mem_of_lt_length l k hkl)
    exact lt_of_le_of_ne hle hne2
  · intro k hkC
    have hkl : k < l.length := by omega
    exact le_listMax l _ (getD_mem_of_lt_length l k hkl)

/-- Constant stub score maps used as the concrete fusion input. -/
def stubMapA : ℕ → ℕ → List ℚ := fun _ _ => [1, 3, 3]

/-- Second constant stub score map (creates a tie in the average). -/
def stubMapB : ℕ → ℕ → List ℚ := fun _ _ => [3, 3, 1]

/-- Closed instance of the C5 theorem at a concrete two-scale input with a
tied maximum. -/
theorem fuseImage_argmax_witness :
    fuseImage 3 [stubMapA, stubMapB] 0 0 < 3 :=
  (fuseImage_argmax_lowest_index_uint8 3 [stubMapA, stubMapB] 0 0
    (by simp) (by decide) (by decide)
    (by intro m hm; fin_cases hm <;> rfl)).2.2.1

end Mseg

namespace Mseg

/-! ## Accuracy metrics (`accuracy_calculator.py` lines 169-188, 246-264)

`SegmentationAverageMeter.get_metrics` lives in
`mseg_semantic.utils.avg_meter`, outside this repository's two source
files; it is modelled from the spec (§4.4). -/

/-- Per-class running sums held by the segmentation average meter:
intersection (true positives), union (TP+FP+FN), and target (TP+FN). -/
structure MeterState where
  interSum : List ℚ
  unionSum : List ℚ
  targetSum : List ℚ

/-- A class contributes to a mean iff its denominator is nonzero and, when
`exclude` is set, it is not among the excluded ids. -/
def keepClass (den : ℚ) (exclude : Bool) (excludeIds : List ℕ) (k : ℕ) : Bool :=
  den != 0 && (!exclude || !(excludeIds.contains k))

/-- Modelled from the spec: `get_metrics(exclude, exclude_ids)` of
`SegmentationAverageMeter` (spec §4.4) — per-class
`IoU[k] = TP/(TP+FP+FN)` and `Acc[k] = TP/(TP+FN)`; `mIoU`/`mAcc` are the
arithmetic means over classes with nonzero denominator and (when
`exclude=True`) not in `exclude_ids`; `allAcc` is diagonal sum over total
sum.  Returns `(mIoU, mAcc, allAcc)`. -/
def getMetrics (st : MeterState) (exclude : Bool) (excludeIds : List ℕ) :
    ℚ × ℚ × ℚ :=
  let iouKept := (List.range st.unionSum.length).filter
    (fun k => keepClass (st.unionSum.getD k 0) exclude excludeIds k)
  let accKept := (List.range st.targetSum.length).filter
    (fun k => keepClass (st.targetSum.getD k 0) exclude excludeIds k)
  let mIoU := (iouKept.map
    (fun k => st.interSum.getD k 0 / st.unionSum.getD k 0)).sum / (iouKept.length : ℚ)
  let mAcc := (accKept.map
    (fun k => st.interSum.getD k 0 / st.targetSum.getD k 0)).sum / (accKept.length : ℚ)
  (mIoU, mAcc, st.interSum.sum / st.targetSum.sum)

/-- `self.excluded_ids` as initialized in `AccuracyCalculator.__init__`
(line 105): the empty list, never reassigned in this file. -/
def excludedIdsInit : List ℕ := []

/-- Exclusion flag passed by `print_results` (lines 173-179): `exclude=True`
only when the taxonomy is 'universal' and the dataset is among the taxonomy
converter's train datasets. -/
def printExcludeFlag (taxonomy : String) (datasetInTrain : Bool) : Bool :=
  taxonomy == "universal" && datasetInTrain

/-- Exclusion flag passed by `dump_acc_results_to_file` (lines 251-254):
`exclude=True` whenever the taxonomy is 'universal'. -/
def dumpExcludeFlag (taxonomy : String) : Bool :=
  taxonomy == "universal"

/-- Metrics computed by the `print_results` path. -/
def printResultsMetrics (taxonomy : String) (datasetInTrain : Bool)
    (st : MeterState) : ℚ × ℚ × ℚ :=
  if printExcludeFlag taxonomy datasetInTrain then
    getMetrics st true excludedIdsInit
  else getMetrics st false []

/-- Metrics computed by the `dump_acc_results_to_file` path. -/
def dumpMetrics (taxonomy : String) (st : MeterState) : ℚ × ℚ × ℚ :=
  if dumpExcludeFlag taxonomy then getMetrics st true excludedIdsInit
  else getMetrics st false []

/-- Excluding the empty id set is vacuous: `get_metrics(exclude=True, [])`
computes exactly `get_metrics(exclude=False)`. -/
theorem getMetrics_exclude_empty (st : MeterState) :
    getMetrics st true [] = getMetrics st false [] := by
  unfold getMetrics
  simp [keepClass]

/-- C7 counterexample: at the configuration the claim names (taxonomy
'universal', dataset not among the train datasets) and a concrete meter
state, the print path and the dump path report identical metrics, contrary
to the claim that they do not. -/
theorem print_dump_metrics_equal_concrete :
    printResultsMetrics "universal" false
        ⟨[1, 1], [3, 3], [2, 2]⟩ =
      dumpMetrics "universal" ⟨[1, 1], [3, 3], [2, 2]⟩ := by
  unfold printResultsMetrics dumpMetrics printExcludeFlag dumpExcludeFlag excludedIdsInit
  simp only [Bool.and_false, beq_self_eq_true, Bool.false_eq_true, if_false, if_true,
    Bool.false_eq_true]
  exact (getMetrics_exclude_empty _).symm

/-- C7 (amended): for taxonomy 'universal' with a dataset not among the
train datasets, the two paths do pass different exclusion flags (print:
`exclude=False`; dump: `exclude=True`), but since `excluded_ids` is always
the empty list the exclusion is vacuous, and every meter state yields
identical metric values on both paths. -/
theorem print_dump_flags_differ_metrics_equal :
    printExcludeFlag "universal" false = false ∧
    dumpExcludeFlag "universal" = true ∧
    ∀ st : MeterState,
      printResultsMetrics "universal" false st = dumpMetrics "universal" st := by
  refine ⟨by decide, by decide, ?_⟩
  intro st
  unfold printResultsMetrics dumpMetrics printExcludeFlag dumpExcludeFlag excludedIdsInit
  simp only [Bool.and_false, beq_self_eq_true, Bool.false_eq_true, if_false, if_true,
    Bool.false_eq_true]
  exact (getMetrics_exclude_empty _).symm

end Mseg

namespace Mseg

/-! ## Unique key derivation (`get_unique_stem_from_last_k_strs`,
accuracy_calculator.py lines 47-60 and inference_task.py lines 69-80)

A file path is modelled as its `pathlib.Path(fpath).parts` component list.
`'_'.join(parts[-k:-1]) + '_' + Path(fpath).stem`. -/

/-- Python slice endpoint resolution: a negative index counts from the end,
then the result is clamped to `[0, len]`. -/
def pySliceIdx (len : ℕ) (i : ℤ) : ℕ :=
  min ((if i < 0 then i + (len : ℤ) else i).toNat) len

/-- Python list slice `l[a:b]`. -/
def pySlice (l : List String) (a b : ℤ) : List String :=
  (l.take (pySliceIdx l.length b)).drop (pySliceIdx l.length a)

/-- `pathlib.PurePath.stem`: the final component without its suffix; the
suffix starts at the last dot `i` of the name provided `0 < i < len-1`
(names like `.bashrc` or `archive.` keep the dot). -/
def pyStem (name : String) : String :=
  let cs := name.toList
  let dots := (List.range cs.length).filter (fun i => cs.getD i ' ' == '.')
  match dots.getLast? with
  | some i => if 0 < i ∧ i < cs.length - 1 then (cs.take i).asString else name
  | none => name

/-- `get_unique_stem_from_last_k_strs` of accuracy_calculator.py:
`'_'.join(parts[-k:-1]) + '_' + stem` (keyword default `k = 4`). -/
def getUniqueStemFromLastKStrs (parts : List String) (k : ℕ := 4) : String :=
  String.intercalate "_" (pySlice parts (-(k : ℤ)) (-1)) ++ "_" ++
    pyStem (parts.getLastD "")

/-- `get_unique_stem_from_last_k_strs` of inference_task.py: identical but
with the slice `parts[-4:-1]` hardcoded (its `k` parameter is unused). -/
def getUniqueStemInference (parts : List String) : String :=
  String.intercalate "_" (pySlice parts (-4) (-1)) ++ "_" ++
    pyStem (parts.getLastD "")

/-- C8: for every non-empty file path, both copies of the unique-key
derivation return the last (up to) 3 parent directory names joined with the
file's stem, an underscore separating each parent and preceding the stem:
the slice `parts[-4:-1]` is exactly the last 3 entries of the parent list. -/
theorem getUniqueStem_last_three_parents (parts : List String)
    (h : parts ≠ []) :
    getUniqueStemFromLastKStrs parts 4 =
      String.intercalate "_"
        (parts.dropLast.drop (parts.dropLast.length - 3)) ++ "_" ++
        pyStem (parts.getLastD "") ∧
    getUniqueStemInference parts = getUniqueStemFromLastKStrs parts 4 := by
  have hlen : 1 ≤ parts.length := by
    cases parts with
    | nil => exact absurd rfl h
    | cons a t => simp
  have hslice : pySlice parts (-4) (-1) =
      parts.dropLast.drop (parts.dropLast.length - 3) := by
    unfold pySlice pySliceIdx
    rw [List.dropLast_eq_take, List.length_take]
    have h1 : min ((if (-1 : ℤ) < 0 then (-1 : ℤ) + (parts.length : ℤ)
        else (-1 : ℤ)).toNat) parts.length = parts.length - 1 := by
      rw [if_pos (by norm_num : (-1 : ℤ) < 0)]
      omega
    have h4 : min ((if (-4 : ℤ) < 0 then (-4 : ℤ) + (parts.length : ℤ)
        else (-4 : ℤ)).toNat) parts.length = parts.length - 4 := by
      rw [if_pos (by norm_num : (-4 : ℤ) < 0)]
      omega
    rw [h1, h4]
    congr 1
    omega
  constructor
  · unfold getUniqueStemFromLastKStrs
    rw [show (-(4 : ℕ) : ℤ) = (-4 : ℤ) by norm_num, hslice]
  · unfold getUniqueStemInference getUniqueStemFromLastKStrs
    rw [show (-(4 : ℕ) : ℤ) = (-4 : ℤ) by norm_num]

/-- Closed instance of the C8 theorem on a ScanNet-style path
`data/scene0000/color/frame.png` (as its parts list). -/
theorem getUniqueStem_witness :
    getUniqueStemFromLastKStrs ["data", "scene0000", "color", "frame.png"] 4 =
      String.intercalate "_"
        ((["data", "scene0000", "color", "frame.png"] : List String).dropLast.drop
          ((["data", "scene0000", "color", "frame.png"] : List String).dropLast.length - 3)) ++
        "_" ++ pyStem ((["data", "scene0000", "color", "frame.png"] : List String).getLastD "") ∧
    getUniqueStemInference ["data", "scene0000", "color", "frame.png"] =
      getUniqueStemFromLastKStrs ["data", "scene0000", "color", "frame.png"] 4 :=
  getUniqueStem_last_three_parents ["data", "scene0000", "color", "frame.png"] (by decide)

/-! ## `convert_label_to_pred_taxonomy` (accuracy_calculator.py lines 122-128) -/

/-- In 'universal' mode the ground-truth image goes through `ToFlatLabel`
(the external taxonomy converter plus the uint8 cast, abstracted as
`transform`); in every other mode the target image is returned as is. -/
def convertLabelToPredTaxonomy {α : Type} (taxonomy : String)
    (transform : α → α) (targetImg : α) : α :=
  if taxonomy = "universal" then transform targetImg else targetImg

/-- C10: for every non-'universal' taxonomy, `convert_label_to_pred_taxonomy`
is the identity on ground-truth label images, whatever the converter does. -/
theorem convertLabel_identity_nonuniversal {α : Type} (taxonomy : String)
    (h : taxonomy ≠ "universal") (transform : α → α) (targetImg : α) :
    convertLabelToPredTaxonomy taxonomy transform targetImg = targetImg := by
  unfold convertLabelToPredTaxonomy
  rw [if_neg h]

/-- Closed instance of the C10 theorem at a concrete taxonomy and image. -/
theorem convertLabel_identity_witness :
    convertLabelToPredTaxonomy "test_dataset" (fun n : ℕ => n + 1) 5 = 5 :=
  convertLabel_identity_nonuniversal "test_dataset" (by decide) (fun n => n + 1) 5

end Mseg

namespace Mseg

/-- Closed instance of the amended C7 theorem at a concrete meter state. -/
theorem print_dump_flags_differ_metrics_equal_witness :
    printResultsMetrics "universal" false ⟨[2], [4], [3]⟩ =
      dumpMetrics "universal" ⟨[2], [4], [3]⟩ :=
  print_dump_flags_differ_metrics_equal.2.2 ⟨[2], [4], [3]⟩

end Mseg
